import Mathlib

/-!
# getargs — verification of the argument-tokenizer specification

The repository ships only generated trait-implementor index data
(`src/implementors/core/panic/unwind_safe/trait.UnwindSafe.js`); the parsing
engine itself is not present under `src/`.  The engine below is therefore
modelled from the specification (spec.md §3–§4), faithful to its words:
an `Options` cursor over a list of raw arguments with the state machine
`Idle / InShortCluster / PendingLongValue / TerminatorSeen`, and the four
operations `next option`, `next option value`, `next positional`,
`next item`.  The `UnwindSafe` implementor table at the end is transcribed
directly from the source file.
-/

set_option autoImplicit false

namespace Getargs

/-- Modelled from the spec (§3 RawArgument): one unit of input text, here a
list of characters so that prefix tests, `=`-splitting and short-unit
decomposition are structural. -/
abbrev RawArg := List Char

/-- Modelled from the spec (§3 Opt): a classified option flag, `Short` holding
one short-option unit, `Long` holding the option-name text slice. -/
inductive Opt where
  | short (c : Char)
  | long (name : List Char)
  deriving DecidableEq

/-- Modelled from the spec (§3 Arg): the outcome of the unified "next item"
operation, either a positional raw argument or a classified option. -/
inductive Arg where
  | positional (a : RawArg)
  | opt (o : Opt)
  deriving DecidableEq

/-- Modelled from the spec (§3 Error, §6): structural classification failures,
carrying the offending option identity, and for value errors the dangling
raw value. -/
inductive Error where
  | missingValue (opt : Opt)
  | unexpectedValue (opt : Opt) (value : List Char)
  deriving DecidableEq

/-- Modelled from the spec (§4.2 / §9): the classifier state machine
`Idle / InShortCluster / PendingLongValue / TerminatorSeen`; the
`PendingLongValue` state remembers the long option that produced the pending
inline value so errors can carry its identity. -/
inductive OptState where
  | idle
  | inShortCluster (units : List Char)
  | pendingLongValue (name : List Char) (value : List Char)
  | terminatorSeen
  deriving DecidableEq

/-- Modelled from the spec (§3 Options cursor): the remaining raw-argument
sequence (forward-only) together with the classification state. -/
structure Options where
  args : List RawArg
  state : OptState
  deriving DecidableEq

/-- Modelled from the spec (§4.1): splitting a long option's text on the first
`=` into the name and the optional inline value. -/
def splitFirstEq : List Char → List Char × Option (List Char)
  | [] => ([], none)
  | c :: rest =>
    if c = '=' then ([], some rest)
    else
      let p := splitFirstEq rest
      (c :: p.1, p.2)

/-- Modelled from the spec (§4.2 `next option`): in `Idle`, pulls the next raw
argument; exactly `--` is consumed and moves to `TerminatorSeen` signalling no
more options; a `--`-prefixed argument splits on `=` into a `Long` option and
an optional `PendingLongValue`; a single `-` with further content enters the
short cluster and yields its first unit; anything else (no dash, or a bare
`-`) is not consumed and signals no more options.  Mid-cluster it drains the
next unit; a dangling pending value raises `UnexpectedValue` lazily here. -/
def nextOpt (o : Options) : Except Error (Option Opt × Options) :=
  match o.state with
  | .pendingLongValue n v => .error (.unexpectedValue (.long n) v)
  | .terminatorSeen => .ok (none, o)
  | .inShortCluster units =>
    match units with
    | [] => .ok (none, { o with state := .idle })
    | c :: rest =>
      .ok (some (.short c),
        { o with state := if rest.isEmpty then .idle else .inShortCluster rest })
  | .idle =>
    match o.args with
    | [] => .ok (none, o)
    | a :: rest =>
      match a with
      | [] => .ok (none, o)
      | c0 :: tail =>
        if c0 = '-' then
          match tail with
          | [] => .ok (none, o)
          | c1 :: t =>
            if c1 = '-' then
              match t with
              | [] => .ok (none, { args := rest, state := .terminatorSeen })
              | _ :: _ =>
                let p := splitFirstEq t
                match p.2 with
                | some v =>
                  .ok (some (.long p.1),
                    { args := rest, state := .pendingLongValue p.1 v })
                | none => .ok (some (.long p.1), { args := rest, state := .idle })
            else
              .ok (some (.short c1),
                { args := rest,
                  state := if t.isEmpty then .idle else .inShortCluster t })
        else .ok (none, o)

/-- Modelled from the spec (§4.2 `next option value`, §4.5 tie-break): the
pending inline value (from `=`) is used first; mid-cluster the rest of the
same raw argument becomes the inline value; otherwise the next whole raw
argument is consumed regardless of its shape, and an exhausted sequence fails
with `MissingValue` carrying the requesting option. -/
def nextValue (o : Options) (opt : Opt) : Except Error (RawArg × Options) :=
  match o.state with
  | .pendingLongValue _ v => .ok (v, { o with state := .idle })
  | .inShortCluster units => .ok (units, { o with state := .idle })
  | _ =>
    match o.args with
    | [] => .error (.missingValue opt)
    | a :: rest => .ok (a, { o with args := rest })

/-- Modelled from the spec (§4.2 `next positional`): pulls the next whole raw
argument; a dangling pending value raises `UnexpectedValue` lazily here.  The
spec declares the call valid only when not mid-cluster. -/
def nextPositional (o : Options) : Except Error (Option RawArg × Options) :=
  match o.state with
  | .pendingLongValue n v => .error (.unexpectedValue (.long n) v)
  | _ =>
    match o.args with
    | [] => .ok (none, o)
    | a :: rest => .ok (some a, { o with args := rest })

/-- Modelled from the spec (§4.2 `next item`): yields `Arg.opt` while
option-shaped items remain, falls through to `Arg.positional` otherwise. -/
def nextArg (o : Options) : Except Error (Option Arg × Options) :=
  match nextOpt o with
  | .error e => .error e
  | .ok (some op, o') => .ok (some (.opt op), o')
  | .ok (none, o') =>
    match nextPositional o' with
    | .error e => .error e
    | .ok (none, o'') => .ok (none, o'')
    | .ok (some a, o'') => .ok (some (.positional a), o'')

/-- Modelled from the spec (§4.3 Positionals): a pure pass-through view over
the cursor's remaining raw arguments, no reclassification. -/
def positionals (o : Options) : List RawArg :=
  o.args

/-- Prepends one yielded element to a fuel-bounded run's outcome. -/
def consRes {α : Type} (a : α) :
    Option (Except Error (List α)) → Option (Except Error (List α))
  | none => none
  | some (.error e) => some (.error e)
  | some (.ok l) => some (.ok (a :: l))

/-- Fuel-bounded repetition of `next positional` (`none` means the fuel ran
out before the sequence was exhausted). -/
def collectPositionals : Nat → Options → Option (Except Error (List RawArg))
  | 0, _ => none
  | fuel + 1, o =>
    match nextPositional o with
    | .error e => some (.error e)
    | .ok (none, _) => some (.ok [])
    | .ok (some a, o') => consRes a (collectPositionals fuel o')

/-- The literal `--` terminator token. -/
def termTok : RawArg := ['-', '-']

theorem collectPositionals_drains (l : List RawArg) (st : OptState)
    (hst : st = .idle ∨ st = .terminatorSeen) :
    collectPositionals (l.length + 1) ⟨l, st⟩ = some (.ok l) := by
  induction l with
  | nil => rcases hst with h | h <;> subst h <;> rfl
  | cons a rest ih =>
    rcases hst with h | h <;> subst h
    · show consRes a (collectPositionals (rest.length + 1) ⟨rest, .idle⟩) =
        some (.ok (a :: rest))
      rw [ih]
      rfl
    · show consRes a (collectPositionals (rest.length + 1) ⟨rest, .terminatorSeen⟩) =
        some (.ok (a :: rest))
      rw [ih]
      rfl

/-- C1: once the literal `--` token is pulled by the Options cursor, it is
consumed without being yielded (the call answers "no more options" and drops
the token), and from the `TerminatorSeen` state every subsequent raw argument
is yielded as a positional regardless of leading-dash shape. -/
theorem claim_C1 (rest : List RawArg) :
    nextOpt ⟨termTok :: rest, .idle⟩ = .ok (none, ⟨rest, .terminatorSeen⟩)
    ∧ (∀ (a : RawArg) (rs : List RawArg),
        nextArg ⟨a :: rs, .terminatorSeen⟩ =
          .ok (some (.positional a), ⟨rs, .terminatorSeen⟩))
    ∧ collectPositionals (rest.length + 1) ⟨rest, .terminatorSeen⟩ =
        some (.ok rest) :=
  ⟨rfl, fun _ _ => rfl, collectPositionals_drains rest _ (Or.inr rfl)⟩

/-- C3: on a non-empty input whose items never begin with a dash, the first
`next option` call returns `Ok(None)` without consuming anything, and
`next positional` / `Positionals` iteration then yields every raw argument
unchanged in the original order. -/
theorem claim_C3 (args : List RawArg) (hne : args ≠ [])
    (hnd : ∀ a ∈ args, a.head? ≠ some '-') :
    nextOpt ⟨args, .idle⟩ = .ok (none, ⟨args, .idle⟩)
    ∧ collectPositionals (args.length + 1) ⟨args, .idle⟩ = some (.ok args)
    ∧ positionals ⟨args, .idle⟩ = args := by
  refine ⟨?_, collectPositionals_drains args _ (Or.inl rfl), rfl⟩
  rcases args with _ | ⟨a, rest⟩
  · exact absurd rfl hne
  · rcases a with _ | ⟨c, tail⟩
    · rfl
    · have hc : c ≠ '-' := by
        have h := hnd (c :: tail) (List.mem_cons_self _ _)
        simpa using h
      simp [nextOpt, hc]

/-- C3 witness at the concrete input `["a", "b"]`. -/
theorem claim_C3_witness :
    nextOpt ⟨[['a'], ['b']], .idle⟩ = .ok (none, ⟨[['a'], ['b']], .idle⟩)
    ∧ collectPositionals 3 ⟨[['a'], ['b']], .idle⟩ = some (.ok [['a'], ['b']])
    ∧ positionals ⟨[['a'], ['b']], .idle⟩ = [['a'], ['b']] :=
  claim_C3 [['a'], ['b']] (by decide) (by decide)

/-- C4: on `["-ab", "c"]` with no short option taking a value, successive
`next option` calls yield `Short a` then `Short b`, the underlying sequence
not advancing past `"c"` while the cluster drains, and `"c"` is then the sole
positional. -/
theorem claim_C4 :
    nextOpt ⟨[['-', 'a', 'b'], ['c']], .idle⟩ =
      .ok (some (.short 'a'), ⟨[['c']], .inShortCluster ['b']⟩)
    ∧ nextOpt ⟨[['c']], .inShortCluster ['b']⟩ =
      .ok (some (.short 'b'), ⟨[['c']], .idle⟩)
    ∧ nextOpt ⟨[['c']], .idle⟩ = .ok (none, ⟨[['c']], .idle⟩)
    ∧ nextPositional ⟨[['c']], .idle⟩ = .ok (some ['c'], ⟨[], .idle⟩)
    ∧ nextPositional ⟨[], .idle⟩ = .ok (none, ⟨[], .idle⟩) :=
  ⟨rfl, rfl, rfl, rfl, rfl⟩

/-- C5: on `["--name=val", "rest"]`, `next option` yields `Long "name"` with
the inline text after the first `=` stored as the pending value; requesting
the value returns `"val"` without consuming `"rest"`, and `"rest"` is the
sole positional. -/
theorem claim_C5 :
    nextOpt ⟨[['-', '-', 'n', 'a', 'm', 'e', '=', 'v', 'a', 'l'],
              ['r', 'e', 's', 't']], .idle⟩ =
      .ok (some (.long ['n', 'a', 'm', 'e']),
           ⟨[['r', 'e', 's', 't']],
            .pendingLongValue ['n', 'a', 'm', 'e'] ['v', 'a', 'l']⟩)
    ∧ nextValue ⟨[['r', 'e', 's', 't']],
          .pendingLongValue ['n', 'a', 'm', 'e'] ['v', 'a', 'l']⟩
        (.long ['n', 'a', 'm', 'e']) =
      .ok (['v', 'a', 'l'], ⟨[['r', 'e', 's', 't']], .idle⟩)
    ∧ nextOpt ⟨[['r', 'e', 's', 't']], .idle⟩ =
      .ok (none, ⟨[['r', 'e', 's', 't']], .idle⟩)
    ∧ nextPositional ⟨[['r', 'e', 's', 't']], .idle⟩ =
      .ok (some ['r', 'e', 's', 't'], ⟨[], .idle⟩)
    ∧ nextPositional ⟨[], .idle⟩ = .ok (none, ⟨[], .idle⟩) :=
  ⟨rfl, rfl, rfl, rfl, rfl⟩

/-- C6: when the yielded option left no pending inline value (cursor back in
`Idle`), requesting the option's value consumes the next whole raw argument
whatever its shape; concretely on `["--name", "val"]` the value resolves to
`"val"` and no positionals remain. -/
theorem claim_C6 :
    (∀ (opt : Opt) (a : RawArg) (rest : List RawArg),
        nextValue ⟨a :: rest, .idle⟩ opt = .ok (a, ⟨rest, .idle⟩))
    ∧ nextOpt ⟨[['-', '-', 'n', 'a', 'm', 'e'], ['v', 'a', 'l']], .idle⟩ =
        .ok (some (.long ['n', 'a', 'm', 'e']), ⟨[['v', 'a', 'l']], .idle⟩)
    ∧ nextValue ⟨[['v', 'a', 'l']], .idle⟩ (.long ['n', 'a', 'm', 'e']) =
        .ok (['v', 'a', 'l'], ⟨[], .idle⟩)
    ∧ nextPositional ⟨[], .idle⟩ = .ok (none, ⟨[], .idle⟩) :=
  ⟨fun _ _ _ => rfl, rfl, rfl, rfl⟩

/-- C7: requesting an option's value with no pending inline value and an
exhausted sequence returns `MissingValue` carrying the option's identity. -/
theorem claim_C7 (o : Options) (opt : Opt) (h1 : o.state = .idle)
    (h2 : o.args = []) :
    nextValue o opt = .error (.missingValue opt) := by
  obtain ⟨args, st⟩ := o
  cases h1
  cases h2
  rfl

/-- C7 witness at the empty sequence and the option `Long "x"`. -/
theorem claim_C7_witness :
    nextValue ⟨[], .idle⟩ (.long ['x']) = .error (.missingValue (.long ['x'])) :=
  claim_C7 ⟨[], .idle⟩ (.long ['x']) rfl rfl

/-- C8: a dangling pending inline value raises `UnexpectedValue` lazily at the
next classification step (`next option`, `next positional` or `next item`),
while the classification of the inline-valued long option itself succeeds
eagerly without error. -/
theorem claim_C8 (o : Options) (n v : List Char)
    (h : o.state = .pendingLongValue n v) :
    nextOpt o = .error (.unexpectedValue (.long n) v)
    ∧ nextPositional o = .error (.unexpectedValue (.long n) v)
    ∧ nextArg o = .error (.unexpectedValue (.long n) v)
    ∧ nextOpt ⟨[['-', '-', 'f', 'l', 'a', 'g', '=', 'x'],
                ['e', 'x', 't', 'r', 'a']], .idle⟩ =
        .ok (some (.long ['f', 'l', 'a', 'g']),
             ⟨[['e', 'x', 't', 'r', 'a']],
              .pendingLongValue ['f', 'l', 'a', 'g'] ['x']⟩) := by
  obtain ⟨args, st⟩ := o
  cases h
  exact ⟨rfl, rfl, rfl, rfl⟩

/-- C8 witness at the concrete cursor holding pending value `"b"` for
`Long "a"`. -/
theorem claim_C8_witness :
    nextOpt ⟨[], .pendingLongValue ['a'] ['b']⟩ =
      .error (.unexpectedValue (.long ['a']) ['b'])
    ∧ nextPositional ⟨[], .pendingLongValue ['a'] ['b']⟩ =
      .error (.unexpectedValue (.long ['a']) ['b'])
    ∧ nextArg ⟨[], .pendingLongValue ['a'] ['b']⟩ =
      .error (.unexpectedValue (.long ['a']) ['b'])
    ∧ nextOpt ⟨[['-', '-', 'f', 'l', 'a', 'g', '=', 'x'],
                ['e', 'x', 't', 'r', 'a']], .idle⟩ =
        .ok (some (.long ['f', 'l', 'a', 'g']),
             ⟨[['e', 'x', 't', 'r', 'a']],
              .pendingLongValue ['f', 'l', 'a', 'g'] ['x']⟩) :=
  claim_C8 ⟨[], .pendingLongValue ['a'] ['b']⟩ ['a'] ['b'] rfl

/-- One recorded yield of the unified iteration: a positional raw argument, a
classified option, or a consumed option value. -/
inductive Yield where
  | pos (a : RawArg)
  | opt (o : Opt)
  | val (v : RawArg)
  deriving DecidableEq

/-- A classification table: each consumed raw argument, in consumption order,
paired with the `Arg`/value yields attributed to it. -/
abbrev Table := List (RawArg × List Yield)

/-- Fuel-bounded drain of the current short-option cluster via `next option`,
collecting the `Short` yields until the cursor leaves the cluster. -/
def drainShorts : Nat → Options → Option (Except Error (List Yield × Options))
  | 0, _ => none
  | fuel + 1, o =>
    match o.state with
    | .inShortCluster _ =>
      match nextOpt o with
      | .error e => some (.error e)
      | .ok (none, o') => some (.ok ([], o'))
      | .ok (some op, o') =>
        match drainShorts fuel o' with
        | none => none
        | some (.error e) => some (.error e)
        | some (.ok (ys, o'')) => some (.ok (.opt op :: ys, o''))
    | _ => some (.ok ([], o))

/-- Prepends one classification entry to a fuel-bounded run's outcome. -/
def consEntry (e : RawArg × List Yield) :
    Option (Except Error Table) → Option (Except Error Table)
  | none => none
  | some (.error err) => some (.error err)
  | some (.ok t) => some (.ok (e :: t))

/-- Fuel-bounded repetition of the unified "next item" step: asks for the next
option, falls through to the next positional, draining short clusters and
consuming pending inline values as it goes; records for each consumed raw
argument the yields attributed to it. -/
def driveTable : Nat → Options → Option (Except Error Table)
  | 0, _ => none
  | fuel + 1, o =>
    match o.state with
    | .terminatorSeen =>
      match nextPositional o with
      | .error e => some (.error e)
      | .ok (none, _) => some (.ok [])
      | .ok (some a, o') => consEntry (a, [.pos a]) (driveTable fuel o')
    | _ =>
      match o.args with
      | [] =>
        match nextOpt o with
        | .error e => some (.error e)
        | .ok _ => some (.ok [])
      | a :: _ =>
        match nextOpt o with
        | .error e => some (.error e)
        | .ok (none, o') =>
          match o'.state with
          | .terminatorSeen => consEntry (a, []) (driveTable fuel o')
          | _ =>
            match nextPositional o' with
            | .error e => some (.error e)
            | .ok (none, _) => some (.ok [])
            | .ok (some p, o'') => consEntry (p, [.pos p]) (driveTable fuel o'')
        | .ok (some op, o') =>
          match o'.state with
          | .pendingLongValue n _ =>
            match nextValue o' (.long n) with
            | .error e => some (.error e)
            | .ok (v', o'') =>
              consEntry (a, [.opt op, .val v']) (driveTable fuel o'')
          | .inShortCluster _ =>
            match drainShorts fuel o' with
            | none => none
            | some (.error e) => some (.error e)
            | some (.ok (ys, o'')) =>
              consEntry (a, .opt op :: ys) (driveTable fuel o'')
          | _ => consEntry (a, [.opt op]) (driveTable fuel o')

theorem consEntry_some_ok {e : RawArg × List Yield}
    {x : Option (Except Error Table)} {t : Table}
    (h : consEntry e x = some (.ok t)) :
    ∃ t', x = some (.ok t') ∧ t = e :: t' := by
  match x with
  | none => simp [consEntry] at h
  | some (.error err) => simp [consEntry] at h
  | some (.ok t') =>
    simp [consEntry] at h
    exact ⟨t', rfl, h.symm⟩

theorem drainShorts_spec :
    ∀ (fuel : Nat) (args : List RawArg) (st : OptState) (ys : List Yield)
      (o'' : Options),
      (st = .idle ∨ ∃ cs, st = .inShortCluster cs) →
      drainShorts fuel ⟨args, st⟩ = some (.ok (ys, o'')) →
      o''.args = args ∧ o''.state = .idle := by
  intro fuel
  induction fuel with
  | zero => intro args st ys o'' _ h; exact absurd h (by simp [drainShorts])
  | succ fuel ih =>
    intro args st ys o'' hst h
    rcases hst with h1 | ⟨cs, h1⟩ <;> subst h1
    · have h' : some (Except.ok (([] : List Yield), (⟨args, .idle⟩ : Options))) =
          some (Except.ok (ys, o'')) := h
      simp only [Option.some.injEq, Except.ok.injEq, Prod.mk.injEq] at h'
      obtain ⟨-, h3⟩ := h'
      subst h3
      exact ⟨rfl, rfl⟩
    · rcases cs with _ | ⟨c, cu⟩
      · have h' : some (Except.ok (([] : List Yield), (⟨args, .idle⟩ : Options))) =
            some (Except.ok (ys, o'')) := h
        simp only [Option.some.injEq, Except.ok.injEq, Prod.mk.injEq] at h'
        obtain ⟨-, h3⟩ := h'
        subst h3
        exact ⟨rfl, rfl⟩
      · rcases cu with _ | ⟨c2, cu'⟩
        · simp [drainShorts, nextOpt] at h
          rcases hd : drainShorts fuel ⟨args, .idle⟩ with - | exc
          · rw [hd] at h
            simp at h
          · rcases exc with e | ⟨ys', o2⟩
            · rw [hd] at h
              simp at h
            · rw [hd] at h
              simp only [Option.some.injEq, Except.ok.injEq, Prod.mk.injEq] at h
              obtain ⟨-, h3⟩ := h
              subst h3
              exact ih args .idle ys' o2 (Or.inl rfl) hd
        · simp [drainShorts, nextOpt] at h
          rcases hd : drainShorts fuel ⟨args, .inShortCluster (c2 :: cu')⟩
            with - | exc
          · rw [hd] at h
            simp at h
          · rcases exc with e | ⟨ys', o2⟩
            · rw [hd] at h
              simp at h
            · rw [hd] at h
              simp only [Option.some.injEq, Except.ok.injEq, Prod.mk.injEq] at h
              obtain ⟨-, h3⟩ := h
              subst h3
              exact ih args (.inShortCluster (c2 :: cu')) ys' o2
                (Or.inr ⟨_, rfl⟩) hd

theorem driveTable_consumes :
    ∀ (fuel : Nat) (args : List RawArg) (st : OptState) (t : Table),
      (st = .idle ∨ st = .terminatorSeen) →
      driveTable fuel ⟨args, st⟩ = some (.ok t) →
      t.map Prod.fst = args ∧ ∀ p ∈ t, p.2 = [] → p.1 = termTok := by
  intro fuel
  induction fuel with
  | zero => intro args st t _ h; exact absurd h (by simp [driveTable])
  | succ fuel ih =>
    intro args st t hst h
    have step : ∀ (a : RawArg) (ys : List Yield) (rest : List RawArg)
        (st' : OptState) (t' : Table),
        (st' = .idle ∨ st' = .terminatorSeen) → (ys = [] → a = termTok) →
        consEntry (a, ys) (driveTable fuel ⟨rest, st'⟩) = some (.ok t') →
        t'.map Prod.fst = a :: rest ∧ ∀ p ∈ t', p.2 = [] → p.1 = termTok := by
      intro a ys rest st' t' hst' hy hce
      obtain ⟨t2, hx, rfl⟩ := consEntry_some_ok hce
      obtain ⟨hmap, hemp⟩ := ih rest st' t2 hst' hx
      refine ⟨by simp [hmap], ?_⟩
      intro p hp hpe
      rcases List.mem_cons.1 hp with heq | hp'
      · subst heq
        exact hy hpe
      · exact hemp p hp' hpe
    rcases hst with h1 | h1 <;> subst h1
    · -- idle state
      rcases args with _ | ⟨a, rest⟩
      · have h' : (some (Except.ok ([] : Table)) :
            Option (Except Error Table)) = some (Except.ok t) := h
        simp only [Option.some.injEq, Except.ok.injEq] at h'
        subst h'
        exact ⟨rfl, fun p hp => absurd hp (List.not_mem_nil p)⟩
      · rcases a with _ | ⟨c0, tail⟩
        · -- empty raw argument: positional shape
          have hnext : nextOpt ⟨([] : RawArg) :: rest, .idle⟩ =
              .ok (none, ⟨([] : RawArg) :: rest, .idle⟩) := rfl
          simp only [driveTable, hnext, nextPositional] at h
          exact step [] [.pos []] rest .idle t (Or.inl rfl)
            (by intro hc; simp at hc) h
        · by_cases hc0 : c0 = '-'
          · subst hc0
            rcases tail with _ | ⟨c1, t1⟩
            · -- lone dash: positional shape
              have hnext : nextOpt ⟨['-'] :: rest, .idle⟩ =
                  .ok (none, ⟨['-'] :: rest, .idle⟩) := rfl
              simp only [driveTable, hnext, nextPositional] at h
              exact step ['-'] [.pos ['-']] rest .idle t (Or.inl rfl)
                (by intro hc; simp at hc) h
            · by_cases hc1 : c1 = '-'
              · subst hc1
                rcases t1 with _ | ⟨t0, t'⟩
                · -- the terminator itself
                  have hnext : nextOpt ⟨['-', '-'] :: rest, .idle⟩ =
                      .ok (none, ⟨rest, .terminatorSeen⟩) := rfl
                  simp only [driveTable, hnext] at h
                  exact step ['-', '-'] [] rest .terminatorSeen t (Or.inr rfl)
                    (fun _ => rfl) h
                · -- long option, split on the first equals sign
                  rcases hq : splitFirstEq (t0 :: t') with ⟨n, vq⟩
                  rcases vq with - | v
                  · have hnext :
                        nextOpt ⟨('-' :: '-' :: t0 :: t') :: rest, .idle⟩ =
                          .ok (some (.long n), ⟨rest, .idle⟩) := by
                      simp [nextOpt, hq]
                    simp only [driveTable, hnext] at h
                    exact step ('-' :: '-' :: t0 :: t') [.opt (.long n)] rest
                      .idle t (Or.inl rfl) (by intro hc; simp at hc) h
                  · have hnext :
                        nextOpt ⟨('-' :: '-' :: t0 :: t') :: rest, .idle⟩ =
                          .ok (some (.long n), ⟨rest, .pendingLongValue n v⟩) := by
                      simp [nextOpt, hq]
                    simp only [driveTable, hnext, nextValue] at h
                    exact step ('-' :: '-' :: t0 :: t')
                      [.opt (.long n), .val v] rest .idle t (Or.inl rfl)
                      (by intro hc; simp at hc) h
              · -- short option cluster
                rcases t1 with _ | ⟨c2, cs⟩
                · have hnext : nextOpt ⟨['-', c1] :: rest, .idle⟩ =
                      .ok (some (.short c1), ⟨rest, .idle⟩) := by
                    simp [nextOpt, hc1]
                  simp only [driveTable, hnext] at h
                  exact step ['-', c1] [.opt (.short c1)] rest .idle t
                    (Or.inl rfl) (by intro hc; simp at hc) h
                · have hnext : nextOpt ⟨('-' :: c1 :: c2 :: cs) :: rest, .idle⟩ =
                      .ok (some (.short c1),
                           ⟨rest, .inShortCluster (c2 :: cs)⟩) := by
                    simp [nextOpt, hc1]
                  simp only [driveTable, hnext] at h
                  rcases hd : drainShorts fuel ⟨rest, .inShortCluster (c2 :: cs)⟩
                    with - | exc
                  · rw [hd] at h
                    simp at h
                  · rcases exc with e | ⟨ys, o''⟩
                    · rw [hd] at h
                      simp at h
                    · rw [hd] at h
                      obtain ⟨hargs, hstate⟩ := drainShorts_spec fuel rest
                        (.inShortCluster (c2 :: cs)) ys o'' (Or.inr ⟨_, rfl⟩) hd
                      obtain ⟨args2, st2⟩ := o''
                      dsimp only at hargs hstate h
                      subst hstate
                      rw [hargs] at h
                      exact step ('-' :: c1 :: c2 :: cs)
                        (.opt (.short c1) :: ys) rest .idle t (Or.inl rfl)
                        (by intro hc; simp at hc) h
          · -- head without a dash: positional shape
            have hnext : nextOpt ⟨(c0 :: tail) :: rest, .idle⟩ =
                .ok (none, ⟨(c0 :: tail) :: rest, .idle⟩) := by
              simp [nextOpt, hc0]
            simp only [driveTable, hnext, nextPositional] at h
            exact step (c0 :: tail) [.pos (c0 :: tail)] rest .idle t
              (Or.inl rfl) (by intro hc; simp at hc) h
    · -- terminator state: everything is positional
      rcases args with _ | ⟨a, rest⟩
      · have h' : (some (Except.ok ([] : Table)) :
            Option (Except Error Table)) = some (Except.ok t) := h
        simp only [Option.some.injEq, Except.ok.injEq] at h'
        subst h'
        exact ⟨rfl, fun p hp => absurd hp (List.not_mem_nil p)⟩
      · simp only [driveTable, nextPositional] at h
        exact step a [.pos a] rest .terminatorSeen t (Or.inr rfl)
          (by intro hc; simp at hc) h

/-- C2 (amended): repeated unified "next item" classification, with pending
inline values consumed, accounts for the raw arguments exactly once and in
order: any completed run's table lists every raw argument of the input
exactly once, in the original order, and an entry with no yields is only ever
the `--` terminator, which is consumed without being yielded. -/
theorem claim_C2 (fuel : Nat) (args : List RawArg) (t : Table)
    (h : driveTable fuel ⟨args, .idle⟩ = some (.ok t)) :
    t.map Prod.fst = args ∧ ∀ p ∈ t, p.2 = [] → p.1 = termTok :=
  driveTable_consumes fuel args .idle t (Or.inl rfl) h

/-- C2 counterexample: on input `["--"]` the unified iteration completes
while yielding no `Arg` at all — the `--` raw argument is consumed but
appears in no yield, so the concatenated `Arg` yields (here empty) do not
cover every raw argument of the input. -/
theorem claim_C2_counterexample :
    driveTable 2 ⟨[termTok], .idle⟩ = some (.ok [(termTok, [])])
    ∧ (List.map Prod.snd [((termTok : RawArg), ([] : List Yield))]).flatten =
        ([] : List Yield) :=
  ⟨rfl, rfl⟩

/-- C2 witness: a concrete completed run covering a short cluster, an inline
long value, plain positionals and the terminator. -/
theorem claim_C2_witness :
    List.map Prod.fst
        [(['-', 'a', 'b'], [Yield.opt (.short 'a'), Yield.opt (.short 'b')]),
         (['-', '-', 'x', '=', '1'], [Yield.opt (.long ['x']), Yield.val ['1']]),
         (['p'], [Yield.pos ['p']]),
         (['-', '-'], []),
         (['-', 'q'], [Yield.pos ['-', 'q']])] =
      [['-', 'a', 'b'], ['-', '-', 'x', '=', '1'], ['p'], ['-', '-'],
       ['-', 'q']] :=
  (claim_C2 10
    [['-', 'a', 'b'], ['-', '-', 'x', '=', '1'], ['p'], ['-', '-'], ['-', 'q']]
    [(['-', 'a', 'b'], [Yield.opt (.short 'a'), Yield.opt (.short 'b')]),
     (['-', '-', 'x', '=', '1'], [Yield.opt (.long ['x']), Yield.val ['1']]),
     (['p'], [Yield.pos ['p']]),
     (['-', '-'], []),
     (['-', 'q'], [Yield.pos ['-', 'q']])]
    (by rfl)).1

/-- C9: a lone `-` is never classified as an option or empty cluster:
`next option` leaves it unconsumed and answers "no more options", and
`next positional` then yields the `-` token unchanged. -/
theorem claim_C9 (rest : List RawArg) :
    nextOpt ⟨['-'] :: rest, .idle⟩ = .ok (none, ⟨['-'] :: rest, .idle⟩)
    ∧ nextPositional ⟨['-'] :: rest, .idle⟩ = .ok (some ['-'], ⟨rest, .idle⟩) :=
  ⟨rfl, rfl⟩

/-- One constraint of a conditional `UnwindSafe` implementation: the type
parameter `A`, the type parameter `I`, or the associated type
`<A as Argument>::ShortOpt` must itself be `UnwindSafe`. -/
inductive UCond where
  | condA
  | condI
  | condShortOpt
  deriving DecidableEq

/-- The generic types of the crate appearing in the implementor index. -/
inductive TyCon where
  | arg
  | error
  | positionals
  | intoPositionals
  | opt
  | options
  deriving DecidableEq

/-- One implementor record: the target type, whether the impl is the negative
`!UnwindSafe` one, and the where-clause constraints of a positive impl. -/
structure UImpl where
  target : TyCon
  negative : Bool
  conds : List UCond
  deriving DecidableEq

/-- The `UnwindSafe` implementor index transcribed in file order from
`src/implementors/core/panic/unwind_safe/trait.UnwindSafe.js`:
`Arg<A>` where `A, ShortOpt: UnwindSafe`; `Error<A>` where
`A, ShortOpt: UnwindSafe`; the negative `!UnwindSafe` impl for
`Positionals<'opts, A, I>`; `IntoPositionals<A, I>` where
`A, I: UnwindSafe`; `Opt<A>` where `A, ShortOpt: UnwindSafe`; and
`Options<A, I>` where `A, I, ShortOpt: UnwindSafe`. -/
def unwindSafeImpls : List UImpl :=
  [⟨.arg, false, [.condA, .condShortOpt]⟩,
   ⟨.error, false, [.condA, .condShortOpt]⟩,
   ⟨.positionals, true, []⟩,
   ⟨.intoPositionals, false, [.condA, .condI]⟩,
   ⟨.opt, false, [.condA, .condShortOpt]⟩,
   ⟨.options, false, [.condA, .condI, .condShortOpt]⟩]

/-- Look up the implementor record for a type. -/
def implFor (ty : TyCon) : Option UImpl :=
  unwindSafeImpls.find? (fun i => i.target == ty)

/-- Whether a type is `UnwindSafe` under an assignment of the parameter
conditions, as determined by the implementor index: a negative impl never is;
a positive impl holds exactly when all its where-clause constraints hold. -/
def isUnwindSafe (assign : UCond → Bool) (ty : TyCon) : Bool :=
  match implFor ty with
  | none => false
  | some i => !i.negative && i.conds.all assign

/-- The assignment making `A` and `I` unwind-safe but not `ShortOpt`. -/
def uAssignNoShort : UCond → Bool
  | .condShortOpt => false
  | _ => true

/-- C10 counterexample: with `A` and `I` unwind-safe but `ShortOpt` not, the
implementor index still makes `IntoPositionals` unwind-safe (its impl does
not constrain `ShortOpt`), refuting "unwind-safe exactly when the parameters
`A`, `I`, and `ShortOpt` are unwind-safe" for `IntoPositionals`. -/
theorem claim_C10_counterexample :
    isUnwindSafe uAssignNoShort .intoPositionals = true
    ∧ (uAssignNoShort .condA && uAssignNoShort .condI &&
        uAssignNoShort .condShortOpt) = false
    ∧ ¬ (isUnwindSafe uAssignNoShort .intoPositionals =
          (uAssignNoShort .condA && uAssignNoShort .condI &&
            uAssignNoShort .condShortOpt)) :=
  ⟨rfl, rfl, by decide⟩

/-- C10 (amended): per the implementor index, `Positionals` is never
unwind-safe (it has the negative impl); `Arg`, `Opt` and `Error` are
unwind-safe exactly when `A` and `ShortOpt` are; `IntoPositionals` exactly
when `A` and `I` are; and `Options` exactly when `A`, `I` and `ShortOpt`
are. -/
theorem claim_C10 (assign : UCond → Bool) :
    isUnwindSafe assign .positionals = false
    ∧ isUnwindSafe assign .arg = (assign .condA && assign .condShortOpt)
    ∧ isUnwindSafe assign .error = (assign .condA && assign .condShortOpt)
    ∧ isUnwindSafe assign .opt = (assign .condA && assign .condShortOpt)
    ∧ isUnwindSafe assign .intoPositionals = (assign .condA && assign .condI)
    ∧ isUnwindSafe assign .options =
        (assign .condA && assign .condI && assign .condShortOpt) := by
  refine ⟨rfl, ?_, ?_, ?_, ?_, ?_⟩ <;>
    simp [isUnwindSafe, implFor, unwindSafeImpls, Bool.and_assoc]

end Getargs
